import Mathlib

/-
Verification of the enum translator in src/generator/gen/js_enum.py: a
source-to-source translator reading a TypeScript-like "export enum" declaration
and emitting a Rust-like macro invocation, inferring the value representation
(integer or string) from the variant literals.

Texts are embedded as lists of characters (Str).  The helper module
(helpers.py) and the documentation base class (models.py) are not part of the
staged sources; their definitions below are modelled from the spec, each
marked "Modelled from the spec".  Everything else is translated directly from
js_enum.py.
-/

/-- A text buffer: Python str, embedded as a list of characters. -/
abbrev Str := List Char

/-- The three error kinds raised by the translator (spec section 7): ParseError
from pattern or bracket mismatch, TypeError and ValueError from type inference.
The Python messages interpolate the repr of the offending object; the embedding
keeps the fixed descriptive part of each message only. -/
inductive GenError where
  | parseError (msg : String)
  | typeError (msg : String)
  | valueError (msg : String)
deriving DecidableEq, Repr

instance {ε α : Type} [DecidableEq ε] [DecidableEq α] : DecidableEq (Except ε α) :=
  fun x y =>
    match x, y with
    | .ok a, .ok b =>
      if h : a = b then isTrue (by rw [h])
      else isFalse (by intro hh; injection hh; contradiction)
    | .error a, .error b =>
      if h : a = b then isTrue (by rw [h])
      else isFalse (by intro hh; injection hh; contradiction)
    | .ok _, .error _ => isFalse (by intro hh; injection hh)
    | .error _, .ok _ => isFalse (by intro hh; injection hh)

/-- The two inferred value representations: Python's builtin types int and str
as used by Variant.get_value_type. -/
inductive ValueType where
  | int
  | str
deriving DecidableEq, Repr

/-- Python regex class backslash-w restricted to ASCII: letters, digits and the
underscore.  (Python's re on str also accepts non-ASCII word characters; the
generator's input corpus is ASCII source text.) -/
def is_word_char (c : Char) : Bool :=
  c.isAlphanum || c = '_'

/-- Python str.isnumeric restricted to ASCII: non-empty and all decimal digits.
(Python also accepts other Unicode numeric characters; the generator's input
corpus is ASCII source text.) -/
def py_isnumeric (s : Str) : Bool :=
  !s.isEmpty && s.all Char.isDigit

/-- Whether p is a prefix of s (Python str.startswith). -/
def begins : Str → Str → Bool
  | [], _ => true
  | _ :: _, [] => false
  | p :: ps, c :: cs => p = c && begins ps cs

/-- Maximal run of leading spaces removed (the " *" part of the anchored
patterns). -/
def drop_spaces : Str → Str
  | [] => []
  | c :: rest => if c = ' ' then drop_spaces rest else c :: rest

/-- Maximal leading run of word characters and the rest (a greedy backslash-w+
at the cursor). -/
def take_word : Str → Str × Str
  | [] => ([], [])
  | c :: rest =>
    if is_word_char c then
      let p := take_word rest
      (c :: p.1, p.2)
    else ([], c :: rest)

/-- Split a text at every occurrence of sep; always returns at least one
(possibly empty) piece, like Python str.split. -/
def split_on_char (sep : Char) : Str → List Str
  | [] => [[]]
  | c :: rest =>
    if c = sep then [] :: split_on_char sep rest
    else
      match split_on_char sep rest with
      | [] => [[c]]
      | p :: ps => (c :: p) :: ps

/-- The lines of a text (split at every newline). -/
def split_lines : Str → List Str :=
  split_on_char '\n'

/-- Join pieces with a separator between consecutive pieces. -/
def join_with (sep : Str) : List Str → Str
  | [] => []
  | [l] => l
  | l :: l2 :: ls => l ++ sep ++ join_with sep (l2 :: ls)

/-- Modelled from the spec (helpers.consume_empty_lines is not among the staged
sources): remove any run of empty lines at the current position; idempotent,
never fails. -/
def consume_empty_lines : Str → Str
  | [] => []
  | c :: rest => if c = '\n' then consume_empty_lines rest else c :: rest

/-- Recursion core of the bracket-balanced extraction, tracking the nesting
depth of brace characters. -/
def read_bracket_aux (depth : Nat) : Str → Option (Str × Str)
  | [] => none
  | c :: rest =>
    if c = '\x7d' then
      match depth with
      | 0 => some ([], rest)
      | d + 1 => (read_bracket_aux d rest).map (fun p => (c :: p.1, p.2))
    else if c = '\x7b' then
      (read_bracket_aux (depth + 1) rest).map (fun p => (c :: p.1, p.2))
    else
      (read_bracket_aux depth rest).map (fun p => (c :: p.1, p.2))

/-- Modelled from the spec (helpers.read_until_closing_bracket is not among the
staged sources): given text beginning just after an opening brace, return the
substring up to the matching closing brace at depth zero and the text after
that brace; ParseError when the closing brace is never found. -/
def read_until_closing_bracket (s : Str) : Except GenError (Str × Str) :=
  match read_bracket_aux 0 s with
  | some p => .ok p
  | none => .error (.parseError "no matching closing bracket")

/-- Modelled from the spec (helpers.add_indent is not among the staged
sources): indent every line of the text by one level of four spaces. -/
def add_indent (s : Str) : Str :=
  join_with ['\n'] ((split_lines s).map (fun l => "    ".data ++ l))

/-- Modelled from the spec (helpers.join_nonempty_lines is not among the
staged sources): join the given pieces with newlines, skipping empty ones. -/
def join_nonempty_lines (ls : List Str) : Str :=
  join_with ['\n'] (ls.filter (fun l => l ≠ []))

/-- First value associated with the key in an association list. -/
def assoc_find : List (Char × Char) → Char → Option Char
  | [], _ => none
  | p :: rest, c => if p.1 = c then some p.2 else assoc_find rest c

/-- The ASCII lowercase-to-uppercase table. -/
def upper_table : List (Char × Char) :=
  [('a', 'A'), ('b', 'B'), ('c', 'C'), ('d', 'D'), ('e', 'E'), ('f', 'F'),
   ('g', 'G'), ('h', 'H'), ('i', 'I'), ('j', 'J'), ('k', 'K'), ('l', 'L'),
   ('m', 'M'), ('n', 'N'), ('o', 'O'), ('p', 'P'), ('q', 'Q'), ('r', 'R'),
   ('s', 'S'), ('t', 'T'), ('u', 'U'), ('v', 'V'), ('w', 'W'), ('x', 'X'),
   ('y', 'Y'), ('z', 'Z')]

/-- Uppercase an ASCII lowercase letter, leave any other character unchanged
(the re-casing touches the first letter of each identifier part only). -/
def ascii_upper (c : Char) : Char :=
  match assoc_find upper_table c with
  | some d => d
  | none => c

/-- Uppercase the first character of a piece, keep the rest unchanged. -/
def capitalize_first : Str → Str
  | [] => []
  | c :: rest => ascii_upper c :: rest

/-- Modelled from the spec (helpers.snake_to_camel_case is not among the
staged sources): split the identifier on underscores, uppercase the first
letter of each part, and concatenate; per the spec, max_value becomes
MaxValue and an identifier already in target casing passes through. -/
def snake_to_camel_case (s : Str) : Str :=
  ((split_on_char '_' s).map capitalize_first).flatten

/-- Split a text at its first newline, failing when it has none. -/
def split_at_nl : Str → Option (Str × Str)
  | [] => none
  | c :: rest =>
    if c = '\n' then some ([], rest)
    else (split_at_nl rest).map (fun p => (c :: p.1, p.2))

/-- One leading documentation-comment line: optional indentation, the marker
"//", then the payload up to the newline.  Returns the payload and the text
after the newline. -/
def doc_line (s : Str) : Option (Str × Str) :=
  let t := drop_spaces s
  if begins "//".data t then split_at_nl (t.drop 2) else none

/-- Fuelled collection of consecutive documentation lines; the fuel is the
text length, which bounds the number of lines. -/
def consume_doc_lines : Nat → Str → List Str × Str
  | 0, s => ([], s)
  | n + 1, s =>
    match doc_line s with
    | some (payload, rest) =>
      let p := consume_doc_lines n rest
      (payload :: p.1, p.2)
    | none => ([], s)

/-- Modelled from the spec (models.Documented.consume is not among the staged
sources): strip zero or more leading documentation-comment lines and return
their payloads (or none when no line was present) with the remaining text. -/
def documented_consume (s : Str) : Option (List Str) × Str :=
  let p := consume_doc_lines s.length s
  (if p.1 = [] then none else some p.1, p.2)

/-- Modelled from the spec (models.Documented.rust_documentation is not among
the staged sources): render the documentation lines in target comment syntax,
one "///" comment line per payload line; empty text when there is none. -/
def rust_documentation (doc : Option (List Str)) : Str :=
  match doc with
  | none => []
  | some ls => join_with ['\n'] (ls.map (fun l => "///".data ++ l))

/-- The lazy value capture of the variant pattern, regex ".+?,\n" after at
least one character was taken: at each position, first try to terminate on a
comma directly followed by a newline, otherwise consume one more non-newline
character.  Returns the captured characters and the text after the newline. -/
def take_value_aux : Str → Option (Str × Str)
  | [] => none
  | c :: rest =>
    if c = ',' ∧ rest.head? = some '\n' then some ([], rest.tail)
    else if c = '\n' then none
    else (take_value_aux rest).map (fun p => (c :: p.1, p.2))

/-- The whole value capture ".+?,\n": at least one non-newline character, then
the lazy scan of take_value_aux. -/
def take_value : Str → Option (Str × Str)
  | [] => none
  | c :: rest =>
    if c = '\n' then none
    else (take_value_aux rest).map (fun p => (c :: p.1, p.2))

/-- The continuation of the variant pattern after the greedy identifier
capture: the identifier must be non-empty and be followed by " = " and then
the lazy value capture. -/
def match_variant_after_word (p : Str × Str) : Option (Str × Str × Str) :=
  if p.1 = [] then none
  else
    match p.2 with
    | ' ' :: '=' :: ' ' :: after =>
      (take_value after).map (fun q => (p.1, q.1, q.2))
    | _ => none

/-- The anchored variant pattern of js_enum.py, regex
" *(?P<ident>\w+) = (?P<value>.+?),\n": returns (ident, value, rest). -/
def match_variant (s : Str) : Option (Str × Str × Str) :=
  match_variant_after_word (take_word (drop_spaces s))

/-- The continuation of the enum-header pattern after the greedy identifier
capture: the identifier must be non-empty and be followed by a space, the
opening brace and a newline. -/
def match_enum_open_after_word (p : Str × Str) : Option (Str × Str) :=
  if p.1 = [] then none
  else
    match p.2 with
    | ' ' :: '\x7b' :: '\n' :: after => some (p.1, after)
    | _ => none

/-- The anchored enum-header pattern of js_enum.py, regex
" *export enum (?P<ident>\w+) \x7b\n": returns (ident, rest). -/
def match_enum_open (s : Str) : Option (Str × Str) :=
  let t := drop_spaces s
  if begins "export enum ".data t then
    match_enum_open_after_word (take_word (t.drop 12))
  else none

/-- Modelled from the spec (helpers.consume_match is not among the staged
sources): fail with ParseError when the text does not begin with a match of
the recognizer, otherwise return the captures and the remaining text. -/
def consume_match {α : Type} (recognizer : Str → Option α) (s : Str) :
    Except GenError α :=
  match recognizer s with
  | some r => .ok r
  | none => .error (.parseError "text does not start with a match of the pattern")

/-- One enum variant as parsed: its documentation block, its identifier in
source casing, and its literal value exactly as captured. -/
structure Variant where
  documentation : Option (List Str)
  ident : Str
  value : Str
deriving DecidableEq, Repr

/-- Variant.consume of js_enum.py: strip documentation, match the variant
pattern, skip trailing empty lines, and return the variant with the rest. -/
def Variant.consume (s : Str) : Except GenError (Variant × Str) :=
  let d := documented_consume s
  match consume_match match_variant d.2 with
  | .error e => .error e
  | .ok (ident, value, rest) =>
    .ok ({ documentation := d.1, ident := ident, value := value },
         consume_empty_lines rest)

/-- Variant.get_value_type of js_enum.py: a value starting with a double quote
is a string, an all-digit value is an integer, anything else raises
TypeError. -/
def Variant.get_value_type (v : Variant) : Except GenError ValueType :=
  if begins ['"'] v.value then .ok .str
  else if py_isnumeric v.value then .ok .int
  else .error (.typeError "can't infer value type for variant")

/-- Variant.to_rust of js_enum.py: the documentation rendered in target
comment syntax (skipped when empty), then "Ident = value," with the
identifier re-cased and the literal value unchanged. -/
def Variant.to_rust (v : Variant) : Str :=
  join_nonempty_lines
    [rust_documentation v.documentation,
     snake_to_camel_case v.ident ++ " = ".data ++ v.value ++ [',']]

/-- One parsed enum: its documentation block, its identifier, and its ordered
variants. -/
structure JsEnum where
  documentation : Option (List Str)
  ident : Str
  variants : List Variant
deriving DecidableEq, Repr

/-- The while-loop of JsEnum.consume: repeatedly apply Variant.consume to the
extracted body until it is exhausted, accumulating variants in encounter
order.  The fuel bounds the loop iterations; called with the body length it
never runs out, since each successful Variant.consume removes at least one
character (lemma variant_consume_shrinks below). -/
def parse_variants (fuel : Nat) (s : Str) : Except GenError (List Variant) :=
  match s with
  | [] => .ok []
  | c :: rest =>
    match fuel with
    | 0 => .error (.parseError "variant loop out of fuel")
    | n + 1 =>
      match Variant.consume (c :: rest) with
      | .error e => .error e
      | .ok (v, body) =>
        match parse_variants n body with
        | .error e => .error e
        | .ok vs => .ok (v :: vs)

/-- JsEnum.consume of js_enum.py: strip documentation, match the enum header,
skip empty lines, extract the brace-balanced body, skip empty lines, then
consume the body variant by variant. -/
def JsEnum.consume (s : Str) : Except GenError (JsEnum × Str) :=
  let d := documented_consume s
  match consume_match match_enum_open d.2 with
  | .error e => .error e
  | .ok (ident, after) =>
    match read_until_closing_bracket (consume_empty_lines after) with
    | .error e => .error e
    | .ok (body, rest) =>
      match parse_variants body.length body with
      | .error e => .error e
      | .ok vs =>
        .ok ({ documentation := d.1, ident := ident, variants := vs },
             consume_empty_lines rest)

/-- The all(...) generator loop of JsEnum.get_value_type: classify each
remaining variant, propagating its own classification error, and stop with
TypeError at the first type that differs from the first variant's. -/
def infer_rest (first : ValueType) : List Variant → Except GenError ValueType
  | [] => .ok first
  | v :: rest =>
    match v.get_value_type with
    | .error e => .error e
    | .ok ty =>
      if ty = first then infer_rest first rest
      else .error (.typeError "enum has multiple conflicting value types")

/-- The next(it) step of JsEnum.get_value_type: classify the first variant,
propagating its error, then check the rest against its type. -/
def infer_head (v : Variant) (rest : List Variant) : Except GenError ValueType :=
  match v.get_value_type with
  | .error err => .error err
  | .ok first => infer_rest first rest

/-- JsEnum.get_value_type of js_enum.py: ValueError on an empty enum,
otherwise the first variant's type, checked lazily against the rest. -/
def JsEnum.get_value_type (e : JsEnum) : Except GenError ValueType :=
  match e.variants with
  | [] => .error (.valueError "can't infer value type for empty enum")
  | v :: rest => infer_head v rest

/-- The fixed two-entry mapping _TYPE2MACRO of js_enum.py. -/
def type2macro_name : ValueType → Str
  | .int => "int_enum!".data
  | .str => "str_enum!".data

/-- JsEnum.macro of js_enum.py (renamed, the word is reserved in Lean): the
macro-invocation name selected by feeding the inferred type through the fixed
mapping; propagates inference errors. -/
def JsEnum.macro_name (e : JsEnum) : Except GenError Str :=
  (e.get_value_type).map type2macro_name

/-- JsEnum.to_rust of js_enum.py: the newline-joined variant renderings,
wrapped in "pub enum Ident" braces indented one level, wrapped in the selected
macro invocation indented one further level; propagates inference errors. -/
def JsEnum.to_rust (e : JsEnum) : Except GenError Str :=
  match e.macro_name with
  | .error err => .error err
  | .ok m =>
    let enum_body := join_with ['\n'] (e.variants.map Variant.to_rust)
    let wrapped :=
      "pub enum ".data ++ e.ident ++ " \x7b\n".data ++ add_indent enum_body
        ++ "\n\x7d".data
    .ok (m ++ " \x7b\n".data ++ add_indent wrapped ++ "\n\x7d".data)

/-- Whether pat occurs as a contiguous substring anywhere in the text. -/
def has_substring (pat : Str) : Str → Bool
  | [] => begins pat []
  | c :: rest => begins pat (c :: rest) || has_substring pat rest

/-- The emitted text of a successful emission, empty on an error. -/
def result_str : Except GenError Str → Str
  | .ok s => s
  | .error _ => []

/-- A well-formed source identifier: non-empty and made of word characters. -/
def wf_ident (s : Str) : Bool :=
  !s.isEmpty && s.all is_word_char

/-- A literal value that the variant grammar can carry: non-empty, on one
line, and without brace characters (which would disturb the bracket-balanced
body extraction). -/
def wf_value (s : Str) : Bool :=
  !s.isEmpty && s.all (fun c => c ≠ '\n' && c ≠ '\x7b' && c ≠ '\x7d')

/-- One input variant line "  ident = value," with its newline, from an
(identifier, value) pair. -/
def mk_variant_line (p : Str × Str) : Str :=
  "  ".data ++ p.1 ++ " = ".data ++ p.2 ++ ",\n".data

/-- The enum body text: the variant lines in order. -/
def mk_body (ps : List (Str × Str)) : Str :=
  (ps.map mk_variant_line).flatten

/-- A whole input declaration "export enum name" with the given variant
lines. -/
def mk_enum_input (name : Str) (ps : List (Str × Str)) : Str :=
  "export enum ".data ++ name ++ " \x7b\n".data ++ mk_body ps ++ "\x7d\n".data

/-- The enum value that parsing mk_enum_input is expected to produce: the
pairs in input order, none documented. -/
def mk_parsed_enum (name : Str) (ps : List (Str × Str)) : JsEnum :=
  { documentation := none, ident := name,
    variants := ps.map (fun p =>
      { documentation := none, ident := p.1, value := p.2 }) }

/-- A line of emitted text containing an equals sign: among the emitter's
output lines, exactly the per-variant lines. -/
def contains_eq (l : Str) : Bool :=
  l.any (fun c => c = '=')

/-- The last line of a text. -/
def last_line (s : Str) : Str :=
  (split_lines s).getLastD []

/-- A documented enum used to test whether the emitter reproduces the
documentation block. -/
def c1_enum : JsEnum :=
  { documentation := some ["doc line one".data, "doc line two".data],
    ident := "Color".data,
    variants := [{ documentation := none, ident := "Low".data, value := "0".data }] }

/-- Inference returns the first type when every remaining variant agrees with
it. -/
theorem infer_rest_all (t : ValueType) (vs : List Variant)
    (h : ∀ v ∈ vs, Variant.get_value_type v = .ok t) :
    infer_rest t vs = .ok t := by
  induction vs with
  | nil => rfl
  | cons v rest ih =>
    have hv := h v (List.mem_cons_self v rest)
    simp only [infer_rest, hv, if_pos rfl]
    exact ih (fun w hw => h w (List.mem_cons_of_mem v hw))

/-- Inference stops with the conflict TypeError at the first variant whose
type differs from the candidate, whatever follows it. -/
theorem infer_rest_conflict (t tm : ValueType) (pre post : List Variant)
    (m : Variant)
    (hpre : ∀ v ∈ pre, Variant.get_value_type v = .ok t)
    (hm : Variant.get_value_type m = .ok tm) (hne : tm ≠ t) :
    infer_rest t (pre ++ m :: post) =
      .error (.typeError "enum has multiple conflicting value types") := by
  induction pre with
  | nil => simp only [List.nil_append, infer_rest, hm, if_neg hne]
  | cons v rest ih =>
    have hv := hpre v (List.mem_cons_self v rest)
    simp only [List.cons_append, infer_rest, hv, if_pos rfl]
    exact ih (fun w hw => hpre w (List.mem_cons_of_mem v hw))

/-- Inference on a non-empty variant list classifies the head and checks the
rest (an unfolding of JsEnum.get_value_type on a cons). -/
theorem get_value_type_cons (d : Option (List Str)) (i : Str) (v : Variant)
    (rest : List Variant) :
    JsEnum.get_value_type { documentation := d, ident := i, variants := v :: rest }
      = infer_head v rest :=
  rfl

/-- Inference with a successfully classified head proceeds to the rest with
the head's type as candidate. -/
theorem infer_head_ok (v : Variant) (rest : List Variant) (t : ValueType)
    (h : Variant.get_value_type v = .ok t) :
    infer_head v rest = infer_rest t rest := by
  unfold infer_head
  rw [h]

/-- C9: emission is deterministic: JsEnum.to_rust invoked twice on one Enum
value yields identical output, and JsEnum.get_value_type invoked repeatedly
returns the same result; both are pure functions of the Enum. -/
theorem to_rust_deterministic (e : JsEnum) :
    JsEnum.to_rust e = JsEnum.to_rust e ∧
    JsEnum.get_value_type e = JsEnum.get_value_type e :=
  ⟨rfl, rfl⟩

/-- C4: on an enum with zero variants, type inference raises ValueError
rather than returning a default, and emission therefore fails with the same
error. -/
theorem empty_enum_value_error (doc : Option (List Str)) (ident : Str) :
    JsEnum.get_value_type { documentation := doc, ident := ident, variants := [] }
      = .error (.valueError "can't infer value type for empty enum") ∧
    JsEnum.to_rust { documentation := doc, ident := ident, variants := [] }
      = .error (.valueError "can't infer value type for empty enum") :=
  ⟨rfl, rfl⟩

/-- C1 counterexample: a concrete enum with a two-line documentation block
whose emitted text does not contain the documentation text at all, so the
documentation lines are not reproduced above the macro invocation. -/
theorem to_rust_drops_enum_documentation :
    c1_enum.documentation.isSome = true ∧
    (JsEnum.to_rust c1_enum).isOk = true ∧
    has_substring "doc line one".data (result_str (JsEnum.to_rust c1_enum)) = false := by
  decide

/-- C1 as amended: the enum emitter ignores the enum's own documentation
block; its output is independent of the documentation field (variant
documentation, by contrast, is rendered inside Variant.to_rust). -/
theorem to_rust_independent_of_documentation (d1 d2 : Option (List Str))
    (ident : Str) (vs : List Variant) :
    JsEnum.to_rust { documentation := d1, ident := ident, variants := vs } =
    JsEnum.to_rust { documentation := d2, ident := ident, variants := vs } :=
  rfl

/-- A decimal digit is not a double quote. -/
theorem digit_ne_quote (c : Char) (h : c.isDigit = true) : c ≠ '"' := by
  rintro rfl
  exact absurd h (by decide)

/-- C2: the classifier returns the string type exactly when the value starts
with a double quote, returns the integer type exactly when the value is a
non-empty run of digit characters, and raises TypeError otherwise. -/
theorem get_value_type_classification (v : Variant) :
    (Variant.get_value_type v = .ok .str ↔ begins ['"'] v.value = true) ∧
    (Variant.get_value_type v = .ok .int ↔
      (v.value ≠ [] ∧ ∀ c ∈ v.value, c.isDigit = true)) ∧
    (begins ['"'] v.value = false →
      ¬(v.value ≠ [] ∧ ∀ c ∈ v.value, c.isDigit = true) →
      Variant.get_value_type v =
        .error (.typeError "can't infer value type for variant")) := by
  have hnum : py_isnumeric v.value = true ↔
      (v.value ≠ [] ∧ ∀ c ∈ v.value, c.isDigit = true) := by
    simp [py_isnumeric, List.isEmpty_iff]
  refine ⟨?_, ?_, ?_⟩
  · unfold Variant.get_value_type
    by_cases hq : begins ['"'] v.value = true
    · simp [hq]
    · simp only [Bool.not_eq_true] at hq
      simp only [hq, Bool.false_eq_true, if_false]
      by_cases hn : py_isnumeric v.value = true
      · simp [hn]
      · simp only [Bool.not_eq_true] at hn
        simp [hn]
  · unfold Variant.get_value_type
    by_cases hq : begins ['"'] v.value = true
    · simp only [hq, if_true]
      constructor
      · intro h; exact absurd h (by simp)
      · rintro ⟨hne, hdig⟩
        cases hv : v.value with
        | nil => exact absurd hv hne
        | cons c rest =>
          have hc : c.isDigit = true := by
            apply hdig; rw [hv]; exact List.mem_cons_self c rest
          have : begins ['"'] v.value = false := by
            rw [hv]
            simp [begins, (digit_ne_quote c hc).symm]
          rw [this] at hq
          exact absurd hq (by simp)
    · simp only [Bool.not_eq_true] at hq
      simp only [hq, Bool.false_eq_true, if_false]
      by_cases hn : py_isnumeric v.value = true
      · rw [if_pos hn]
        constructor
        · intro _
          exact hnum.mp hn
        · intro _
          rfl
      · simp only [Bool.not_eq_true] at hn
        simp only [hn, Bool.false_eq_true, if_false]
        constructor
        · intro h; exact absurd h (by simp)
        · intro h
          rw [← hnum] at h
          rw [hn] at h
          exact absurd h (by simp)
  · intro hq hnot
    unfold Variant.get_value_type
    have hn : py_isnumeric v.value = false := by
      cases hpy : py_isnumeric v.value with
      | false => rfl
      | true => exact absurd (hnum.mp hpy) hnot
    simp [hq, hn]

/-- C2 witness: a value that is neither quoted nor numeric raises TypeError. -/
theorem get_value_type_classification_witness :
    Variant.get_value_type
        { documentation := none, ident := ['A'], value := "abc".data }
      = .error (.typeError "can't infer value type for variant") :=
  (get_value_type_classification
      { documentation := none, ident := ['A'], value := "abc".data }).2.2
    (by decide) (by decide)

/-- C10: the double-quote test takes precedence: any value starting with a
double quote is classified as the string type, however malformed its tail,
and classification never fails on it. -/
theorem quote_precedence (v : Variant)
    (h : begins ['"'] v.value = true) :
    Variant.get_value_type v = .ok .str := by
  unfold Variant.get_value_type
  simp [h]

/-- C10 witness: an unterminated string literal is still classified as the
string type. -/
theorem quote_precedence_witness :
    Variant.get_value_type
        { documentation := none, ident := ['A'], value := "\"12".data }
      = .ok .str :=
  quote_precedence
    { documentation := none, ident := ['A'], value := "\"12".data }
    (by decide)

/-- C3: the macro name comes from the fixed two-entry mapping on the inferred
type: integer enums get the integer-keyed macro, string enums the
string-keyed one, and no other macro name is ever produced. -/
theorem macro_selection (e : JsEnum) :
    (JsEnum.get_value_type e = .ok .int →
      JsEnum.macro_name e = .ok "int_enum!".data) ∧
    (JsEnum.get_value_type e = .ok .str →
      JsEnum.macro_name e = .ok "str_enum!".data) ∧
    (∀ m, JsEnum.macro_name e = .ok m →
      m = "int_enum!".data ∨ m = "str_enum!".data) := by
  unfold JsEnum.macro_name
  refine ⟨?_, ?_, ?_⟩
  · intro h; rw [h]; rfl
  · intro h; rw [h]; rfl
  · intro m h
    cases hty : JsEnum.get_value_type e with
    | error err => rw [hty] at h; exact absurd h (by simp [Except.map])
    | ok t =>
      rw [hty] at h
      simp only [Except.map] at h
      cases t with
      | int => left; cases h; rfl
      | str => right; cases h; rfl

/-- C3 witness: an all-integer enum selects the integer-keyed macro. -/
theorem macro_selection_witness :
    JsEnum.macro_name
        { documentation := none, ident := "Pos".data,
          variants := [{ documentation := none, ident := "Low".data, value := ['0'] },
                       { documentation := none, ident := "High".data, value := ['1'] }] }
      = .ok "int_enum!".data :=
  (macro_selection
      { documentation := none, ident := "Pos".data,
        variants := [{ documentation := none, ident := "Low".data, value := ['0'] },
                     { documentation := none, ident := "High".data, value := ['1'] }]
      }).1 (by decide)

/-- C5: on a non-empty enum whose variants classify successfully up to the
first type mismatch, inference takes the first variant's type as candidate
and raises the conflict TypeError at the first differing variant; the result
does not depend on the variants after that mismatch, which are never
classified; and when all variants share one type that type is returned. -/
theorem inference_conflict_short_circuit :
    (∀ (doc : Option (List Str)) (name : Str) (v0 m : Variant)
        (pre post post' : List Variant) (t0 tm : ValueType),
      Variant.get_value_type v0 = .ok t0 →
      (∀ v ∈ pre, Variant.get_value_type v = .ok t0) →
      Variant.get_value_type m = .ok tm → tm ≠ t0 →
      JsEnum.get_value_type
          { documentation := doc, ident := name, variants := v0 :: pre ++ m :: post }
        = .error (.typeError "enum has multiple conflicting value types") ∧
      JsEnum.get_value_type
          { documentation := doc, ident := name, variants := v0 :: pre ++ m :: post }
        = JsEnum.get_value_type
          { documentation := doc, ident := name, variants := v0 :: pre ++ m :: post' }) ∧
    (∀ (doc : Option (List Str)) (name : Str) (v0 : Variant)
        (rest : List Variant) (t0 : ValueType),
      Variant.get_value_type v0 = .ok t0 →
      (∀ v ∈ rest, Variant.get_value_type v = .ok t0) →
      JsEnum.get_value_type
          { documentation := doc, ident := name, variants := v0 :: rest }
        = .ok t0) := by
  constructor
  · intro doc name v0 m pre post post' t0 tm h0 hpre hm hne
    have hconf := infer_rest_conflict t0 tm pre post m hpre hm hne
    have hconf' := infer_rest_conflict t0 tm pre post' m hpre hm hne
    simp only [List.cons_append, get_value_type_cons,
        infer_head_ok v0 (pre ++ m :: post) t0 h0,
        infer_head_ok v0 (pre ++ m :: post') t0 h0, hconf, hconf']
    exact ⟨trivial, trivial⟩
  · intro doc name v0 rest t0 h0 hrest
    simp only [get_value_type_cons, infer_head_ok v0 rest t0 h0]
    exact infer_rest_all t0 rest hrest

/-- C5 witness: variants 1 and then a string literal conflict; a third,
unclassifiable variant after the mismatch does not change the error. -/
theorem inference_conflict_short_circuit_witness :
    JsEnum.get_value_type
        { documentation := none, ident := ['E'],
          variants := [{ documentation := none, ident := ['A'], value := ['1'] },
                       { documentation := none, ident := ['B'], value := "\"x\"".data },
                       { documentation := none, ident := ['C'], value := "zzz".data }] }
      = .error (.typeError "enum has multiple conflicting value types") :=
  (inference_conflict_short_circuit.1 none ['E']
      { documentation := none, ident := ['A'], value := ['1'] }
      { documentation := none, ident := ['B'], value := "\"x\"".data }
      [] [{ documentation := none, ident := ['C'], value := "zzz".data }] []
      ValueType.int ValueType.str (by decide) (by simp) (by decide) (by decide)).1

/-- Word characters are none of the structural characters of the grammar. -/
theorem word_char_spec (c : Char) (h : is_word_char c = true) :
    c ≠ ' ' ∧ c ≠ '/' ∧ c ≠ '\n' ∧ c ≠ '=' ∧ c ≠ ',' ∧ c ≠ '\x7b' ∧ c ≠ '\x7d' := by
  refine ⟨?_, ?_, ?_, ?_, ?_, ?_, ?_⟩ <;>
    (rintro rfl; exact absurd h (by decide))

/-- Values found in an association list whose values all satisfy a property
satisfy it too. -/
theorem assoc_find_prop (l : List (Char × Char)) (c d : Char)
    (hl : ∀ p ∈ l, is_word_char p.2 = true) (h : assoc_find l c = some d) :
    is_word_char d = true := by
  induction l with
  | nil => exact absurd h (by simp [assoc_find])
  | cons p rest ih =>
    by_cases hp : p.1 = c
    · have : some p.2 = some d := by rw [← h]; simp [assoc_find, hp]
      cases this
      exact hl p (List.mem_cons_self p rest)
    · refine ih (fun q hq => hl q (List.mem_cons_of_mem p hq)) ?_
      rw [← h]
      simp [assoc_find, hp]

/-- Re-casing keeps word characters word characters. -/
theorem ascii_upper_word (c : Char) (h : is_word_char c = true) :
    is_word_char (ascii_upper c) = true := by
  unfold ascii_upper
  cases hf : assoc_find upper_table c with
  | none => exact h
  | some d => exact assoc_find_prop upper_table c d (by decide) hf

/-- Any text is, in particular, a continuation of itself. -/
theorem begins_append (p r : Str) : begins p (p ++ r) = true := by
  induction p with
  | nil => rfl
  | cons c cs ih => simp [begins, ih]

/-- A text whose first character is not a slash starts no comment marker. -/
theorem begins_slash (t : Str) (h : t.head? ≠ some '/') :
    begins "//".data t = false := by
  cases t with
  | nil => rfl
  | cons c cs =>
    have hc : ('/' = c) = False := by
      simp only [eq_iff_iff, iff_false]
      intro hh
      exact h (by rw [← hh]; rfl)
    show (decide ('/' = c) && begins ['/'] cs) = false
    simp [hc]

/-- Leading-space removal leaves a text whose head is no space unchanged. -/
theorem drop_spaces_cons_ne (c : Char) (s : Str) (h : c ≠ ' ') :
    drop_spaces (c :: s) = c :: s := by
  simp [drop_spaces, h]

/-- Leading-space removal eats one leading space. -/
theorem drop_spaces_cons_sp (s : Str) : drop_spaces (' ' :: s) = drop_spaces s := by
  simp [drop_spaces]

/-- Leading-space removal leaves a text starting with a word character
unchanged. -/
theorem drop_spaces_word (w t : Str) (hw : ∀ c ∈ w, is_word_char c = true)
    (hne : w ≠ []) : drop_spaces (w ++ t) = w ++ t := by
  cases w with
  | nil => exact absurd rfl hne
  | cons c cs =>
    have hc := (word_char_spec c (hw c (List.mem_cons_self c cs))).1
    exact drop_spaces_cons_ne c (cs ++ t) hc

/-- Empty-line removal leaves a text whose head is no newline unchanged. -/
theorem cel_cons_ne (c : Char) (s : Str) (h : c ≠ '\n') :
    consume_empty_lines (c :: s) = c :: s := by
  simp [consume_empty_lines, h]

/-- Empty-line removal eats one leading newline. -/
theorem cel_cons_nl (s : Str) :
    consume_empty_lines ('\n' :: s) = consume_empty_lines s := by
  simp [consume_empty_lines]

/-- The greedy word capture takes exactly a word-character run followed by a
non-word character. -/
theorem take_word_append (w r : Str) (hw : ∀ c ∈ w, is_word_char c = true)
    (hr : ∀ c, r.head? = some c → is_word_char c = false) :
    take_word (w ++ r) = (w, r) := by
  induction w with
  | nil =>
    cases r with
    | nil => rfl
    | cons c cs => simp [take_word, hr c rfl]
  | cons c cs ih =>
    have hc := hw c (List.mem_cons_self c cs)
    have := ih (fun x hx => hw x (List.mem_cons_of_mem c hx))
    simp [take_word, hc, this]

/-- The lazy scan stops exactly at an appended ",\n" when the preceding
characters contain no newline. -/
theorem take_value_aux_exact (w r : Str) (hw : ∀ c ∈ w, c ≠ '\n') :
    take_value_aux (w ++ ',' :: '\n' :: r) = some (w, r) := by
  induction w with
  | nil => simp [take_value_aux]
  | cons c cs ih =>
    have hc : c ≠ '\n' := hw c (List.mem_cons_self c cs)
    have hcs := ih (fun x hx => hw x (List.mem_cons_of_mem c hx))
    have hterm : ¬(c = ',' ∧ (cs ++ ',' :: '\n' :: r).head? = some '\n') := by
      rintro ⟨-, hh⟩
      cases cs with
      | nil => exact absurd (Option.some.inj hh) (by decide)
      | cons d ds =>
        have hd : d ≠ '\n' := hw d (List.mem_cons_of_mem c (List.mem_cons_self d ds))
        exact hd (Option.some.inj hh)
    show (if c = ',' ∧ (cs ++ ',' :: '\n' :: r).head? = some '\n' then
            some ([], (cs ++ ',' :: '\n' :: r).tail)
          else if c = '\n' then none
          else (take_value_aux (cs ++ ',' :: '\n' :: r)).map
            (fun p => (c :: p.1, p.2))) = some (c :: cs, r)
    rw [if_neg hterm, if_neg hc, hcs]
    rfl

/-- The whole lazy value capture on a well-formed "value,\n" line takes
exactly the value. -/
theorem take_value_exact (w r : Str) (hne : w ≠ []) (hw : ∀ c ∈ w, c ≠ '\n') :
    take_value (w ++ ',' :: '\n' :: r) = some (w, r) := by
  cases w with
  | nil => exact absurd rfl hne
  | cons c cs =>
    have hc : c ≠ '\n' := hw c (List.mem_cons_self c cs)
    have hcs := take_value_aux_exact cs (r := r)
      (fun x hx => hw x (List.mem_cons_of_mem c hx))
    simp [take_value, hc, hcs]

/-- The lazy scan fails on a line that reaches its newline without a comma
directly in front of it. -/
theorem take_value_aux_no_comma (w r : Str)
    (hw : ∀ c ∈ w, c ≠ '\n' ∧ c ≠ ',') :
    take_value_aux (w ++ '\n' :: r) = none := by
  induction w with
  | nil => simp [take_value_aux]
  | cons c cs ih =>
    have hc := hw c (List.mem_cons_self c cs)
    have hcs := ih (fun x hx => hw x (List.mem_cons_of_mem c hx))
    have hterm : ¬(c = ',' ∧ (cs ++ '\n' :: r).head? = some '\n') := by
      rintro ⟨hh, -⟩
      exact hc.2 hh
    show (if c = ',' ∧ (cs ++ '\n' :: r).head? = some '\n' then
            some ([], (cs ++ '\n' :: r).tail)
          else if c = '\n' then none
          else (take_value_aux (cs ++ '\n' :: r)).map
            (fun p => (c :: p.1, p.2))) = none
    rw [if_neg hterm, if_neg hc.1, hcs]
    rfl

/-- The whole value capture fails on a line missing its trailing comma. -/
theorem take_value_no_comma (w r : Str)
    (hw : ∀ c ∈ w, c ≠ '\n' ∧ c ≠ ',') :
    take_value (w ++ '\n' :: r) = none := by
  cases w with
  | nil => simp [take_value]
  | cons c cs =>
    have hc := hw c (List.mem_cons_self c cs)
    have hcs := take_value_aux_no_comma cs (r := r)
      (fun x hx => hw x (List.mem_cons_of_mem c hx))
    simp [take_value, hc.1, hcs]

/-- A text starting with a non-slash after its indentation has no leading
documentation line. -/
theorem doc_line_none (s : Str) (h : (drop_spaces s).head? ≠ some '/') :
    doc_line s = none := by
  simp [doc_line, begins_slash (drop_spaces s) h]

/-- Documentation extraction on a text with no leading documentation line is
the identity. -/
theorem consume_doc_lines_none (n : Nat) (s : Str) (h : doc_line s = none) :
    consume_doc_lines n s = ([], s) := by
  cases n with
  | zero => rfl
  | succ n => simp [consume_doc_lines, h]

/-- Documented.consume on a text with no leading documentation line returns
no documentation and the text unchanged. -/
theorem documented_consume_id (s : Str) (h : doc_line s = none) :
    documented_consume s = (none, s) := by
  simp [documented_consume, consume_doc_lines_none s.length s h]

/-- Bracket-balanced extraction of a brace-free body stops at the appended
closing brace. -/
theorem read_bracket_exact (body r : Str)
    (hb : ∀ c ∈ body, c ≠ '\x7b' ∧ c ≠ '\x7d') :
    read_bracket_aux 0 (body ++ '\x7d' :: r) = some (body, r) := by
  induction body with
  | nil => simp [read_bracket_aux]
  | cons c cs ih =>
    have hc := hb c (List.mem_cons_self c cs)
    have hcs := ih (fun x hx => hb x (List.mem_cons_of_mem c hx))
    simp [read_bracket_aux, hc.1, hc.2, hcs]

/-- Version of read_bracket_exact at the Except level. -/
theorem read_until_closing_exact (body r : Str)
    (hb : ∀ c ∈ body, c ≠ '\x7b' ∧ c ≠ '\x7d') :
    read_until_closing_bracket (body ++ '\x7d' :: r) = .ok (body, r) := by
  simp [read_until_closing_bracket, read_bracket_exact body r hb]

/-- Unfolding of a well-formed identifier: non-empty, all word characters. -/
theorem wf_ident_spec (s : Str) (h : wf_ident s = true) :
    s ≠ [] ∧ ∀ c ∈ s, is_word_char c = true := by
  unfold wf_ident at h
  rw [Bool.and_eq_true] at h
  constructor
  · intro hs
    subst hs
    exact absurd h.1 (by decide)
  · exact fun c hc => List.all_eq_true.mp h.2 c hc

/-- Unfolding of a well-formed value: non-empty, single-line, brace-free. -/
theorem wf_value_spec (s : Str) (h : wf_value s = true) :
    s ≠ [] ∧ ∀ c ∈ s, c ≠ '\n' ∧ c ≠ '\x7b' ∧ c ≠ '\x7d' := by
  unfold wf_value at h
  rw [Bool.and_eq_true] at h
  constructor
  · intro hs
    subst hs
    exact absurd h.1 (by decide)
  · intro c hc
    have hcv := List.all_eq_true.mp h.2 c hc
    simp only [Bool.and_eq_true, decide_eq_true_eq] at hcv
    exact ⟨hcv.1.1, hcv.1.2, hcv.2⟩

/-- A text starting with a non-empty word run does not start with a slash. -/
theorem head_word_not_slash (w t : Str) (hw : ∀ c ∈ w, is_word_char c = true)
    (hne : w ≠ []) : (w ++ t).head? ≠ some '/' := by
  cases w with
  | nil => exact absurd rfl hne
  | cons c cs =>
    intro hh
    have hc : c = '/' := Option.some.inj hh
    exact (word_char_spec c (hw c (List.mem_cons_self c cs))).2.1 hc

/-- The variant pattern matches a well-formed "  ident = value," line exactly,
capturing the identifier and the value and consuming through the newline. -/
theorem match_variant_exact (ident value r : Str)
    (hi : wf_ident ident = true) (hv : value ≠ [])
    (hnl : ∀ c ∈ value, c ≠ '\n') :
    match_variant ("  ".data ++ ident ++ " = ".data ++ value ++ ",\n".data ++ r)
      = some (ident, value, r) := by
  obtain ⟨hne, hword⟩ := wf_ident_spec ident hi
  have hshape : "  ".data ++ ident ++ " = ".data ++ value ++ ",\n".data ++ r
      = ' ' :: ' ' :: (ident ++ (' ' :: '=' :: ' ' :: (value ++ ',' :: '\n' :: r))) := by
    simp only [List.append_assoc]
    rfl
  rw [hshape]
  unfold match_variant
  rw [drop_spaces_cons_sp, drop_spaces_cons_sp,
    drop_spaces_word ident _ hword hne,
    take_word_append ident _ hword
      (fun c hc => by cases Option.some.inj hc; decide)]
  unfold match_variant_after_word
  rw [if_neg hne]
  show (take_value (value ++ ',' :: '\n' :: r)).map
    (fun q => (ident, q.1, q.2)) = some (ident, value, r)
  rw [take_value_exact value r hv hnl]
  rfl

/-- The variant pattern rejects a body line that is missing its trailing
comma. -/
theorem match_variant_no_comma (ident value r : Str)
    (hi : wf_ident ident = true)
    (hvc : ∀ c ∈ value, c ≠ '\n' ∧ c ≠ ',') :
    match_variant ("  ".data ++ ident ++ " = ".data ++ value ++ "\n".data ++ r)
      = none := by
  obtain ⟨hne, hword⟩ := wf_ident_spec ident hi
  have hshape : "  ".data ++ ident ++ " = ".data ++ value ++ "\n".data ++ r
      = ' ' :: ' ' :: (ident ++ (' ' :: '=' :: ' ' :: (value ++ '\n' :: r))) := by
    simp only [List.append_assoc]
    rfl
  rw [hshape]
  unfold match_variant
  rw [drop_spaces_cons_sp, drop_spaces_cons_sp,
    drop_spaces_word ident _ hword hne,
    take_word_append ident _ hword
      (fun c hc => by cases Option.some.inj hc; decide)]
  unfold match_variant_after_word
  rw [if_neg hne]
  show (take_value (value ++ '\n' :: r)).map
    (fun q => (ident, q.1, q.2)) = none
  rw [take_value_no_comma value r hvc]
  rfl

/-- Variant.consume on a well-formed variant line returns the undocumented
variant and the rest after trailing blank lines. -/
theorem variant_consume_exact (ident value r : Str)
    (hi : wf_ident ident = true) (hv : value ≠ [])
    (hnl : ∀ c ∈ value, c ≠ '\n') :
    Variant.consume ("  ".data ++ ident ++ " = ".data ++ value ++ ",\n".data ++ r)
      = .ok ({ documentation := none, ident := ident, value := value },
             consume_empty_lines r) := by
  obtain ⟨hne, hword⟩ := wf_ident_spec ident hi
  have hdoc : doc_line ("  ".data ++ ident ++ " = ".data ++ value ++ ",\n".data ++ r)
      = none := by
    apply doc_line_none
    have hshape : "  ".data ++ ident ++ " = ".data ++ value ++ ",\n".data ++ r
        = ' ' :: ' ' :: (ident ++ (' ' :: '=' :: ' ' :: (value ++ ',' :: '\n' :: r))) := by
      simp only [List.append_assoc]
      rfl
    rw [hshape, drop_spaces_cons_sp, drop_spaces_cons_sp,
      drop_spaces_word ident _ hword hne]
    exact head_word_not_slash ident _ hword hne
  have hcm : consume_match match_variant
      ("  ".data ++ ident ++ " = ".data ++ value ++ ",\n".data ++ r)
      = Except.ok (ident, value, r) := by
    unfold consume_match
    rw [match_variant_exact ident value r hi hv hnl]
  unfold Variant.consume
  simp only [documented_consume_id _ hdoc, hcm]

/-- Variant.consume rejects a body line missing its trailing comma with
ParseError, returning no partial variant. -/
theorem variant_consume_no_comma (ident value r : Str)
    (hi : wf_ident ident = true)
    (hvc : ∀ c ∈ value, c ≠ '\n' ∧ c ≠ ',') :
    Variant.consume ("  ".data ++ ident ++ " = ".data ++ value ++ "\n".data ++ r)
      = .error (.parseError "text does not start with a match of the pattern") := by
  obtain ⟨hne, hword⟩ := wf_ident_spec ident hi
  have hdoc : doc_line ("  ".data ++ ident ++ " = ".data ++ value ++ "\n".data ++ r)
      = none := by
    apply doc_line_none
    have hshape : "  ".data ++ ident ++ " = ".data ++ value ++ "\n".data ++ r
        = ' ' :: ' ' :: (ident ++ (' ' :: '=' :: ' ' :: (value ++ '\n' :: r))) := by
      simp only [List.append_assoc]
      rfl
    rw [hshape, drop_spaces_cons_sp, drop_spaces_cons_sp,
      drop_spaces_word ident _ hword hne]
    exact head_word_not_slash ident _ hword hne
  have hcm : consume_match match_variant
      ("  ".data ++ ident ++ " = ".data ++ value ++ "\n".data ++ r)
      = Except.error (.parseError "text does not start with a match of the pattern") := by
    unfold consume_match
    rw [match_variant_no_comma ident value r hi hvc]
  unfold Variant.consume
  simp only [documented_consume_id _ hdoc, hcm]

/-- The enum-header pattern matches a well-formed "export enum name" header
exactly, capturing the identifier and consuming through the newline. -/
theorem match_enum_open_exact (name r : Str) (hn : wf_ident name = true) :
    match_enum_open ("export enum ".data ++ name ++ " \x7b\n".data ++ r)
      = some (name, r) := by
  obtain ⟨hne, hword⟩ := wf_ident_spec name hn
  have hshape : "export enum ".data ++ name ++ " \x7b\n".data ++ r
      = "export enum ".data ++ (name ++ (' ' :: '\x7b' :: '\n' :: r)) := by
    simp only [List.append_assoc]
    rfl
  rw [hshape]
  unfold match_enum_open
  have hds : drop_spaces ("export enum ".data ++ (name ++ (' ' :: '\x7b' :: '\n' :: r)))
      = "export enum ".data ++ (name ++ (' ' :: '\x7b' :: '\n' :: r)) := by
    show drop_spaces
        ('e' :: ("xport enum ".data ++ (name ++ (' ' :: '\x7b' :: '\n' :: r)))) = _
    rw [drop_spaces_cons_ne _ _ (by decide)]
    rfl
  simp only [hds]
  rw [if_pos (begins_append "export enum ".data _)]
  have hdrop : ("export enum ".data ++ (name ++ (' ' :: '\x7b' :: '\n' :: r))).drop 12
      = name ++ (' ' :: '\x7b' :: '\n' :: r) :=
    List.drop_left "export enum ".data (name ++ (' ' :: '\x7b' :: '\n' :: r))
  rw [hdrop, take_word_append name _ hword
    (fun c hc => by cases Option.some.inj hc; decide)]
  unfold match_enum_open_after_word
  rw [if_neg hne]
  rfl

/-- The enum-header pattern rejects a header missing the export keyword. -/
theorem match_enum_open_no_export (name r : Str) :
    match_enum_open ("enum ".data ++ name ++ " \x7b\n".data ++ r) = none := by
  unfold match_enum_open
  have hds : drop_spaces ("enum ".data ++ name ++ " \x7b\n".data ++ r)
      = "enum ".data ++ name ++ " \x7b\n".data ++ r := by
    show drop_spaces ('e' :: ("num ".data ++ name ++ " \x7b\n".data ++ r)) = _
    rw [drop_spaces_cons_ne _ _ (by decide)]
    rfl
  simp only [hds]
  have hb : begins "export enum ".data ("enum ".data ++ name ++ " \x7b\n".data ++ r)
      = false := rfl
  rw [if_neg (fun h => by rw [hb] at h; exact absurd h (by decide))]

/-- JsEnum.consume rejects a header missing the export keyword with
ParseError, returning no partial enum. -/
theorem js_enum_consume_no_export (name r : Str) :
    JsEnum.consume ("enum ".data ++ name ++ " \x7b\n".data ++ r)
      = .error (.parseError "text does not start with a match of the pattern") := by
  have hds : drop_spaces ("enum ".data ++ name ++ " \x7b\n".data ++ r)
      = "enum ".data ++ name ++ " \x7b\n".data ++ r := by
    show drop_spaces ('e' :: ("num ".data ++ name ++ " \x7b\n".data ++ r)) = _
    rw [drop_spaces_cons_ne _ _ (by decide)]
    rfl
  have hdoc : doc_line ("enum ".data ++ name ++ " \x7b\n".data ++ r) = none := by
    apply doc_line_none
    rw [hds]
    intro hh
    rw [show ("enum ".data ++ name ++ " \x7b\n".data ++ r).head? = some 'e' from rfl] at hh
    exact absurd (Option.some.inj hh) (by decide)
  have hcm : consume_match match_enum_open ("enum ".data ++ name ++ " \x7b\n".data ++ r)
      = Except.error (.parseError "text does not start with a match of the pattern") := by
    unfold consume_match
    rw [match_enum_open_no_export name r]
  unfold JsEnum.consume
  simp only [documented_consume_id _ hdoc, hcm]

/-- C8: malformed next declarations are rejected: a variant body line missing
its trailing comma makes Variant.consume raise ParseError, and an enum header
missing the export keyword makes JsEnum.consume raise ParseError; in both
cases no partial Variant or Enum is returned and, the parsers being pure, the
caller's text is unchanged. -/
theorem malformed_input_rejection :
    (∀ (ident value r : Str), wf_ident ident = true →
      (∀ c ∈ value, c ≠ '\n' ∧ c ≠ ',') →
      Variant.consume ("  ".data ++ ident ++ " = ".data ++ value ++ "\n".data ++ r)
        = .error (.parseError "text does not start with a match of the pattern")) ∧
    (∀ (name r : Str),
      JsEnum.consume ("enum ".data ++ name ++ " \x7b\n".data ++ r)
        = .error (.parseError "text does not start with a match of the pattern")) :=
  ⟨fun ident value r hi hvc => variant_consume_no_comma ident value r hi hvc,
   fun name r => js_enum_consume_no_export name r⟩

/-- C8 witness: the concrete line "  A = 1" without comma, and the concrete
header "enum Foo" without export, are both rejected with ParseError. -/
theorem malformed_input_rejection_witness :
    Variant.consume ("  ".data ++ "A".data ++ " = ".data ++ "1".data ++ "\n".data ++ [])
      = .error (.parseError "text does not start with a match of the pattern") ∧
    JsEnum.consume ("enum ".data ++ "Foo".data ++ " \x7b\n".data ++ [])
      = .error (.parseError "text does not start with a match of the pattern") :=
  ⟨malformed_input_rejection.1 "A".data "1".data [] (by decide) (by decide),
   malformed_input_rejection.2 "Foo".data []⟩

/-- A single-line text splits into exactly itself. -/
theorem split_lines_no_nl (l : Str) (h : ∀ c ∈ l, c ≠ '\n') :
    split_lines l = [l] := by
  induction l with
  | nil => rfl
  | cons c cs ih =>
    have hc : c ≠ '\n' := h c (List.mem_cons_self c cs)
    have := ih (fun x hx => h x (List.mem_cons_of_mem c hx))
    simp [split_lines, split_on_char, hc] at this ⊢
    simp [this]

/-- Line splitting never produces an empty list of lines. -/
theorem split_on_char_ne_nil (sep : Char) (s : Str) : split_on_char sep s ≠ [] := by
  cases s with
  | nil => simp [split_on_char]
  | cons c rest =>
    by_cases hc : c = sep
    · simp [split_on_char, hc]
    · cases h : split_on_char sep rest with
      | nil => simp [split_on_char, hc, h]
      | cons p ps => simp [split_on_char, hc, h]

/-- Splitting after a single-line prefix peels that line off. -/
theorem split_lines_append_left (a b : Str) (ha : ∀ c ∈ a, c ≠ '\n') :
    split_lines (a ++ '\n' :: b) = a :: split_lines b := by
  induction a with
  | nil => simp [split_lines, split_on_char]
  | cons c a' ih =>
    have hc : c ≠ '\n' := ha c (List.mem_cons_self c a')
    have := ih (fun x hx => ha x (List.mem_cons_of_mem c hx))
    simp only [split_lines] at this ⊢
    simp [split_on_char, hc, this]

/-- Splitting before a single-line suffix peels that line off the end. -/
theorem split_lines_append_right (a b : Str) (hb : ∀ c ∈ b, c ≠ '\n') :
    split_lines (a ++ '\n' :: b) = split_lines a ++ [b] := by
  induction a with
  | nil =>
    have h1 : split_lines ('\n' :: b) = [] :: split_lines b := by
      simp [split_lines, split_on_char]
    show split_lines ('\n' :: b) = split_lines [] ++ [b]
    rw [h1, split_lines_no_nl b hb]
    rfl
  | cons c a' ih =>
    by_cases hc : c = '\n'
    · subst hc
      simp only [List.cons_append, split_lines] at ih ⊢
      simp [split_on_char, ih]
    · obtain ⟨q, qs, hq⟩ := List.exists_cons_of_ne_nil (split_on_char_ne_nil '\n' a')
      simp only [List.cons_append, split_lines] at ih ⊢
      simp [split_on_char, hc, ih, hq]

/-- Every line produced by line splitting is newline-free. -/
theorem split_lines_mem_no_nl (s : Str) :
    ∀ l ∈ split_lines s, ∀ c ∈ l, c ≠ '\n' := by
  induction s with
  | nil =>
    intro l hl
    simp [split_lines, split_on_char] at hl
    subst hl
    simp
  | cons c s' ih =>
    intro l hl
    by_cases hc : c = '\n'
    · subst hc
      simp only [split_lines, split_on_char, if_pos rfl] at hl
      rcases List.mem_cons.mp hl with h1 | h2
      · subst h1; simp
      · exact ih l h2
    · obtain ⟨q, qs, hq⟩ := List.exists_cons_of_ne_nil (split_on_char_ne_nil '\n' s')
      have hq' : split_lines s' = q :: qs := hq
      simp only [split_lines, split_on_char, if_neg hc, hq] at hl
      rcases List.mem_cons.mp hl with h1 | h2
      · subst h1
        intro x hx
        rcases List.mem_cons.mp hx with h3 | h4
        · subst h3; exact hc
        · exact ih q (by rw [hq']; exact List.mem_cons_self q qs) x h4
      · exact ih l (by rw [hq']; exact List.mem_cons_of_mem q h2)

/-- Joining a head line onto further lines inserts one separator. -/
theorem join_with_cons (sep : Str) (l : Str) (ls : List Str) (h : ls ≠ []) :
    join_with sep (l :: ls) = l ++ sep ++ join_with sep ls := by
  cases ls with
  | nil => exact absurd rfl h
  | cons l2 ls' => rfl

/-- Splitting is a left inverse of joining newline-free lines. -/
theorem split_lines_join (ls : List Str) (hne : ls ≠ [])
    (h : ∀ l ∈ ls, ∀ c ∈ l, c ≠ '\n') :
    split_lines (join_with ['\n'] ls) = ls := by
  induction ls with
  | nil => exact absurd rfl hne
  | cons l ls' ih =>
    cases ls' with
    | nil =>
      show split_lines l = [l]
      exact split_lines_no_nl l (h l (List.mem_cons_self l []))
    | cons l2 ls'' =>
      have hjoin : join_with ['\n'] (l :: l2 :: ls'')
          = l ++ '\n' :: join_with ['\n'] (l2 :: ls'') := by
        rw [join_with_cons ['\n'] l (l2 :: ls'') (by simp), List.append_assoc]
        rfl
      rw [hjoin,
        split_lines_append_left l _ (h l (List.mem_cons_self l (l2 :: ls''))),
        ih (by simp) (fun x hx => h x (List.mem_cons_of_mem l hx))]

/-- Indenting a text indents each of its lines. -/
theorem split_lines_add_indent (s : Str) :
    split_lines (add_indent s) = (split_lines s).map (fun l => "    ".data ++ l) := by
  unfold add_indent
  apply split_lines_join
  · simp [split_on_char_ne_nil '\n' s, split_lines]
  · intro l hl c hc
    obtain ⟨l0, hl0, rfl⟩ := List.mem_map.mp hl
    rcases List.mem_append.mp hc with h1 | h2
    · have h1' : c = ' ' := by
        have he : "    ".data = [' ', ' ', ' ', ' '] := rfl
        rw [he] at h1
        simpa using h1
      subst h1'
      decide
    · exact split_lines_mem_no_nl s l0 hl0 c h2

/-- Characters of the split pieces come from the split text. -/
theorem split_on_char_subset (sep : Char) (s : Str) :
    ∀ p ∈ split_on_char sep s, ∀ c ∈ p, c ∈ s := by
  induction s with
  | nil =>
    intro p hp
    simp [split_on_char] at hp
    subst hp
    simp
  | cons c s' ih =>
    intro p hp
    by_cases hc : c = sep
    · subst hc
      simp only [split_on_char, if_pos rfl] at hp
      rcases List.mem_cons.mp hp with h1 | h2
      · subst h1; simp
      · exact fun x hx => List.mem_cons_of_mem c (ih p h2 x hx)
    · obtain ⟨q, qs, hq⟩ := List.exists_cons_of_ne_nil (split_on_char_ne_nil sep s')
      simp only [split_on_char, if_neg hc, hq] at hp
      rcases List.mem_cons.mp hp with h1 | h2
      · subst h1
        intro x hx
        rcases List.mem_cons.mp hx with h3 | h4
        · rw [h3]; exact List.mem_cons_self c s'
        · exact List.mem_cons_of_mem c
            (ih q (by rw [hq]; exact List.mem_cons_self q qs) x h4)
      · exact fun x hx =>
          List.mem_cons_of_mem c
            (ih p (by rw [hq]; exact List.mem_cons_of_mem q h2) x hx)

/-- Re-casing a word-character identifier yields word characters only. -/
theorem camel_word (s : Str) (h : ∀ c ∈ s, is_word_char c = true) :
    ∀ c ∈ snake_to_camel_case s, is_word_char c = true := by
  intro c hc
  unfold snake_to_camel_case at hc
  obtain ⟨piece, hpiece, hcp⟩ := List.mem_flatten.mp hc
  obtain ⟨q, hq, rfl⟩ := List.mem_map.mp hpiece
  cases q with
  | nil => exact absurd hcp (by simp [capitalize_first])
  | cons d q' =>
    have hd : is_word_char d = true :=
      h d (split_on_char_subset '_' s (d :: q') hq d (List.mem_cons_self d q'))
    rcases List.mem_cons.mp hcp with h1 | h2
    · subst h1
      exact ascii_upper_word d hd
    · exact h c (split_on_char_subset '_' s (d :: q') hq c (List.mem_cons_of_mem d h2))

/-- Joining two pieces keeps the non-empty second piece and prefixes the
first when it is non-empty. -/
theorem join_nonempty_two (a b : Str) (hb : b ≠ []) :
    join_nonempty_lines [a, b] = if a = [] then b else a ++ '\n' :: b := by
  unfold join_nonempty_lines
  by_cases ha : a = []
  · subst ha
    simp [List.filter, hb, join_with]
  · rw [if_neg ha]
    have hfil : [a, b].filter (fun l => l ≠ []) = [a, b] := by
      simp [List.filter, ha, hb]
    rw [hfil, join_with_cons ['\n'] a [b] (by simp), List.append_assoc]
    rfl

/-- The last line of a two-piece nonempty join is the second piece. -/
theorem last_line_join_nonempty (a b : Str) (hb : b ≠ [])
    (hbnl : ∀ c ∈ b, c ≠ '\n') :
    last_line (join_nonempty_lines [a, b]) = b := by
  rw [join_nonempty_two a b hb]
  by_cases hd : a = []
  · rw [if_pos hd]
    unfold last_line
    rw [split_lines_no_nl b hbnl]
    rfl
  · rw [if_neg hd]
    unfold last_line
    rw [split_lines_append_right a b hbnl]
    exact List.getLastD_concat _ _ _

/-- The rendered variant line is newline-free when the value is. -/
theorem variant_line_no_nl (ident value : Str)
    (hi : ∀ c ∈ ident, is_word_char c = true)
    (hv : ∀ c ∈ value, c ≠ '\n') :
    ∀ c ∈ snake_to_camel_case ident ++ " = ".data ++ value ++ [','], c ≠ '\n' := by
  intro c hc
  rcases List.mem_append.mp hc with h1 | h2
  · rcases List.mem_append.mp h1 with h3 | h4
    · rcases List.mem_append.mp h3 with h5 | h6
      · exact (word_char_spec c (camel_word ident hi c h5)).2.2.1
      · have : c = ' ' ∨ c = '=' := by
          have he : " = ".data = [' ', '=', ' '] := rfl
          rw [he] at h6
          simpa [or_comm, or_assoc] using h6
        rcases this with rfl | rfl <;> decide
    · exact hv c h4
  · have : c = ',' := by simpa using h2
    subst this
    decide

/-- C7: the emitted variant line is "Ident = value," with the identifier
re-cased from snake to camel casing and the literal value text reproduced
unchanged; per the spec's example the re-casing sends max_value to
MaxValue. -/
theorem variant_rendering (v : Variant)
    (hi : ∀ c ∈ v.ident, is_word_char c = true)
    (hv : ∀ c ∈ v.value, c ≠ '\n') :
    last_line (Variant.to_rust v)
      = snake_to_camel_case v.ident ++ " = ".data ++ v.value ++ [','] ∧
    snake_to_camel_case "max_value".data = "MaxValue".data := by
  constructor
  · have hb : snake_to_camel_case v.ident ++ " = ".data ++ v.value ++ [',']
        ≠ [] := by simp
    exact last_line_join_nonempty _ _ hb (variant_line_no_nl v.ident v.value hi hv)
  · decide

/-- C7 witness: a documented variant with ident max_value and a string value
renders its last line as the re-cased assignment line. -/
theorem variant_rendering_witness :
    last_line (Variant.to_rust
        { documentation := some [" speed".data], ident := "max_value".data,
          value := "\"x\"".data })
      = snake_to_camel_case "max_value".data ++ " = ".data ++ "\"x\"".data ++ [','] ∧
    snake_to_camel_case "max_value".data = "MaxValue".data :=
  variant_rendering
    { documentation := some [" speed".data], ident := "max_value".data,
      value := "\"x\"".data }
    (by decide) (by decide)

/-- One iteration of the variant loop: a successful Variant.consume prepends
its variant and recurses on the remaining body. -/
theorem parse_variants_step (n : Nat) (s : Str) (v : Variant) (body : Str)
    (hs : s ≠ []) (h : Variant.consume s = .ok (v, body)) :
    parse_variants (n + 1) s
      = (parse_variants n body).map (fun vs => v :: vs) := by
  cases s with
  | nil => exact absurd rfl hs
  | cons c rest =>
    have hunf : parse_variants (n + 1) (c :: rest)
        = (match Variant.consume (c :: rest) with
           | Except.error e => Except.error e
           | Except.ok (v, body) =>
             match parse_variants n body with
             | Except.error e => Except.error e
             | Except.ok vs => Except.ok (v :: vs)) := rfl
    rw [hunf, h]
    show (match parse_variants n body with
      | Except.error e => Except.error e
      | Except.ok vs => Except.ok (v :: vs))
      = (parse_variants n body).map (fun vs => v :: vs)
    cases hpv : parse_variants n body with
    | error e => rfl
    | ok vs => rfl

/-- The variant loop accepts an exhausted body whatever fuel remains. -/
theorem parse_variants_nil (n : Nat) : parse_variants n [] = .ok [] := by
  cases n with
  | zero => rfl
  | succ n => rfl

/-- Unfolding of the body text on a leading pair. -/
theorem mk_body_cons (p : Str × Str) (ps : List (Str × Str)) :
    mk_body (p :: ps) = mk_variant_line p ++ mk_body ps := by
  simp [mk_body]

/-- The body text never starts with a newline, so blank-line skipping leaves
it unchanged. -/
theorem cel_mk_body (ps : List (Str × Str)) :
    consume_empty_lines (mk_body ps) = mk_body ps := by
  cases ps with
  | nil => rfl
  | cons p ps' =>
    have hsh : mk_variant_line p ++ mk_body ps'
        = ' ' :: ' ' :: (p.1 ++ (" = ".data ++ (p.2 ++ (",\n".data ++ mk_body ps')))) := by
      simp only [mk_variant_line, List.append_assoc]
      rfl
    rw [mk_body_cons, hsh]
    exact cel_cons_ne _ _ (by decide)

/-- Characters of a well-formed variant line contain no braces. -/
theorem mk_variant_line_chars (p : Str × Str)
    (hp : wf_ident p.1 = true ∧ wf_value p.2 = true) :
    ∀ c ∈ mk_variant_line p, c ≠ '\x7b' ∧ c ≠ '\x7d' := by
  obtain ⟨hne1, hw⟩ := wf_ident_spec p.1 hp.1
  obtain ⟨hne2, hv⟩ := wf_value_spec p.2 hp.2
  intro c hc
  unfold mk_variant_line at hc
  rcases List.mem_append.mp hc with h1 | h2
  · rcases List.mem_append.mp h1 with h3 | h4
    · rcases List.mem_append.mp h3 with h5 | h6
      · rcases List.mem_append.mp h5 with h7 | h8
        · have hsp : c = ' ' := by
            have he : "  ".data = [' ', ' '] := rfl
            rw [he] at h7
            simpa using h7
          subst hsp
          exact ⟨by decide, by decide⟩
        · have hw' := word_char_spec c (hw c h8)
          exact ⟨hw'.2.2.2.2.2.1, hw'.2.2.2.2.2.2⟩
      · have heq : c = ' ' ∨ c = '=' := by
          have he : " = ".data = [' ', '=', ' '] := rfl
          rw [he] at h6
          simpa [or_comm, or_assoc] using h6
        rcases heq with rfl | rfl
        · exact ⟨by decide, by decide⟩
        · exact ⟨by decide, by decide⟩
    · have hv' := hv c h4
      exact ⟨hv'.2.1, hv'.2.2⟩
  · have heq : c = ',' ∨ c = '\n' := by
      have he : ",\n".data = [',', '\n'] := rfl
      rw [he] at h2
      simpa using h2
    rcases heq with rfl | rfl
    · exact ⟨by decide, by decide⟩
    · exact ⟨by decide, by decide⟩

/-- Characters of a well-formed body contain no braces, so the bracket
extraction stops exactly at the closing brace of the declaration. -/
theorem mk_body_no_braces (ps : List (Str × Str))
    (hps : ∀ p ∈ ps, wf_ident p.1 = true ∧ wf_value p.2 = true) :
    ∀ c ∈ mk_body ps, c ≠ '\x7b' ∧ c ≠ '\x7d' := by
  induction ps with
  | nil => intro c hc; exact absurd hc (by simp [mk_body])
  | cons p ps' ih =>
    intro c hc
    rw [mk_body_cons] at hc
    rcases List.mem_append.mp hc with h1 | h2
    · exact mk_variant_line_chars p (hps p (List.mem_cons_self p ps')) c h1
    · exact ih (fun q hq => hps q (List.mem_cons_of_mem p hq)) c h2

/-- The variant loop with the body length as fuel parses a well-formed body
into its pairs, in input order. -/
theorem parse_variants_mk_body (ps : List (Str × Str))
    (hps : ∀ p ∈ ps, wf_ident p.1 = true ∧ wf_value p.2 = true) :
    ∀ n, (mk_body ps).length ≤ n →
    parse_variants n (mk_body ps)
      = .ok (ps.map (fun p =>
          { documentation := none, ident := p.1, value := p.2 })) := by
  induction ps with
  | nil =>
    intro n hn
    exact parse_variants_nil n
  | cons p ps' ih =>
    intro n hn
    obtain ⟨hi, hv⟩ := hps p (List.mem_cons_self p ps')
    obtain ⟨hvne, hvchars⟩ := wf_value_spec p.2 hv
    have hline_len : 2 ≤ (mk_variant_line p).length := by
      unfold mk_variant_line
      simp [List.length_append]
    cases n with
    | zero =>
      rw [mk_body_cons, List.length_append] at hn
      omega
    | succ n' =>
      rw [mk_body_cons]
      have hcons : Variant.consume (mk_variant_line p ++ mk_body ps')
          = .ok ({ documentation := none, ident := p.1, value := p.2 },
                 consume_empty_lines (mk_body ps')) := by
        have hsh : mk_variant_line p ++ mk_body ps'
            = "  ".data ++ p.1 ++ " = ".data ++ p.2 ++ ",\n".data ++ mk_body ps' := by
          simp [mk_variant_line, List.append_assoc]
        rw [hsh]
        exact variant_consume_exact p.1 p.2 (mk_body ps') hi hvne
          (fun c hc => (hvchars c hc).1)
      rw [cel_mk_body ps'] at hcons
      have hne2 : mk_variant_line p ++ mk_body ps' ≠ [] := by
        intro hh
        have hlen0 := congrArg List.length hh
        rw [List.length_append] at hlen0
        simp only [List.length_nil] at hlen0
        omega
      have hlen2 : (mk_body ps').length ≤ n' := by
        rw [mk_body_cons, List.length_append] at hn
        omega
      rw [parse_variants_step n' _ _ _ hne2 hcons,
        ih (fun q hq => hps q (List.mem_cons_of_mem p hq)) n' hlen2]
      rfl

/-- JsEnum.consume accepts a generated declaration whole, producing the
variants of the body in input order and consuming the entire text. -/
theorem js_enum_consume_exact (name : Str) (ps : List (Str × Str))
    (hn : wf_ident name = true)
    (hps : ∀ p ∈ ps, wf_ident p.1 = true ∧ wf_value p.2 = true) :
    JsEnum.consume (mk_enum_input name ps) = .ok (mk_parsed_enum name ps, []) := by
  have hshape : mk_enum_input name ps
      = "export enum ".data ++ name ++ " \x7b\n".data
        ++ (mk_body ps ++ '\x7d' :: '\n' :: []) := by
    unfold mk_enum_input
    simp only [List.append_assoc]
  rw [hshape]
  have hds : drop_spaces ("export enum ".data ++ name ++ " \x7b\n".data
      ++ (mk_body ps ++ '\x7d' :: '\n' :: []))
      = "export enum ".data ++ name ++ " \x7b\n".data
        ++ (mk_body ps ++ '\x7d' :: '\n' :: []) := by
    show drop_spaces ('e' :: ("xport enum ".data ++ name ++ " \x7b\n".data
      ++ (mk_body ps ++ '\x7d' :: '\n' :: []))) = _
    rw [drop_spaces_cons_ne _ _ (by decide)]
    rfl
  have hdoc : doc_line ("export enum ".data ++ name ++ " \x7b\n".data
      ++ (mk_body ps ++ '\x7d' :: '\n' :: [])) = none := by
    apply doc_line_none
    rw [hds]
    intro hh
    rw [show ("export enum ".data ++ name ++ " \x7b\n".data
      ++ (mk_body ps ++ '\x7d' :: '\n' :: [])).head? = some 'e' from rfl] at hh
    exact absurd (Option.some.inj hh) (by decide)
  have hcm : consume_match match_enum_open ("export enum ".data ++ name
      ++ " \x7b\n".data ++ (mk_body ps ++ '\x7d' :: '\n' :: []))
      = Except.ok (name, mk_body ps ++ '\x7d' :: '\n' :: []) := by
    unfold consume_match
    rw [match_enum_open_exact name _ hn]
  have hcel1 : consume_empty_lines (mk_body ps ++ '\x7d' :: '\n' :: [])
      = mk_body ps ++ '\x7d' :: '\n' :: [] := by
    cases ps with
    | nil =>
      show consume_empty_lines ('\x7d' :: '\n' :: []) = _
      exact cel_cons_ne _ _ (by decide)
    | cons p ps' =>
      have hsh : mk_body (p :: ps') ++ '\x7d' :: '\n' :: []
          = ' ' :: ' ' :: (p.1 ++ (" = ".data ++ (p.2 ++ (",\n".data
            ++ (mk_body ps' ++ '\x7d' :: '\n' :: []))))) := by
        rw [mk_body_cons]
        simp only [mk_variant_line, List.append_assoc]
        rfl
      rw [hsh]
      exact cel_cons_ne _ _ (by decide)
  have hbr : read_until_closing_bracket (mk_body ps ++ '\x7d' :: '\n' :: [])
      = .ok (mk_body ps, '\n' :: []) :=
    read_until_closing_exact _ _ (mk_body_no_braces ps hps)
  have hpv : parse_variants (mk_body ps).length (mk_body ps)
      = .ok (ps.map (fun p =>
          { documentation := none, ident := p.1, value := p.2 })) :=
    parse_variants_mk_body ps hps _ le_rfl
  unfold JsEnum.consume
  simp only [documented_consume_id _ hdoc, hcm, hcel1, hbr, hpv]
  rfl

/-- An undocumented variant renders to its assignment line alone. -/
theorem variant_to_rust_nodoc (i v : Str) :
    Variant.to_rust { documentation := none, ident := i, value := v }
      = snake_to_camel_case i ++ " = ".data ++ v ++ [','] := by
  have h := join_nonempty_two []
    (snake_to_camel_case i ++ " = ".data ++ v ++ [',']) (by simp)
  rw [if_pos rfl] at h
  exact h

/-- Containment of an equals sign distributes over concatenation. -/
theorem contains_eq_append (a b : Str) :
    contains_eq (a ++ b) = (contains_eq a || contains_eq b) := by
  simp [contains_eq, List.any_append]

/-- A word-character run contains no equals sign. -/
theorem contains_eq_word (w : Str) (hw : ∀ c ∈ w, is_word_char c = true) :
    contains_eq w = false := by
  unfold contains_eq
  rw [List.any_eq_false]
  intro c hc
  have h4 := (word_char_spec c (hw c hc)).2.2.2.1
  simp [h4]

/-- Every rendered assignment line contains an equals sign. -/
theorem contains_eq_line (camel v : Str) :
    contains_eq (camel ++ " = ".data ++ v ++ [',']) = true := by
  rw [contains_eq_append, contains_eq_append, contains_eq_append,
    show contains_eq " = ".data = true from rfl]
  simp

/-- Neither macro-invocation head line contains an equals sign. -/
theorem contains_eq_head (t : ValueType) :
    contains_eq (type2macro_name t ++ [' ', '\x7b']) = false := by
  cases t <;> decide

/-- The emitted text for a successfully inferred enum, written out: the
macro head line, the indented wrapped enum block, and the closing brace. -/
theorem to_rust_unfolded (e : JsEnum) (m : Str)
    (hm : JsEnum.macro_name e = .ok m) :
    JsEnum.to_rust e = .ok (m ++ " \x7b\n".data
      ++ add_indent ("pub enum ".data ++ e.ident ++ " \x7b\n".data
        ++ add_indent (join_with ['\n'] (e.variants.map Variant.to_rust))
        ++ "\n\x7d".data)
      ++ "\n\x7d".data) := by
  unfold JsEnum.to_rust
  rw [hm]

/-- Splitting a block of the emitted shape into lines: the head line, the
indented inner lines, and the closing brace line. -/
theorem split_lines_wrap (m inner : Str) (hm : ∀ c ∈ m, c ≠ '\n') :
    split_lines (m ++ " \x7b\n".data ++ add_indent inner ++ "\n\x7d".data)
      = (m ++ [' ', '\x7b'])
        :: ((split_lines inner).map (fun l => "    ".data ++ l) ++ [['\x7d']]) := by
  have hsh : m ++ " \x7b\n".data ++ add_indent inner ++ "\n\x7d".data
      = (m ++ [' ', '\x7b']) ++ '\n' :: (add_indent inner ++ '\n' :: ['\x7d']) := by
    simp only [List.append_assoc]
    rfl
  have hm2 : ∀ c ∈ m ++ [' ', '\x7b'], c ≠ '\n' := by
    intro c hc
    rcases List.mem_append.mp hc with h1 | h2
    · exact hm c h1
    · have : c = ' ' ∨ c = '\x7b' := by simpa using h2
      rcases this with rfl | rfl <;> decide
  rw [hsh, split_lines_append_left _ _ hm2,
    split_lines_append_right _ _ (by intro c hc; simp at hc; subst hc; decide),
    split_lines_add_indent]

/-- C6: order preservation end to end.  Parsing a generated declaration
yields the variants in their input order, and the emitted text renders one
assignment line per variant, in exactly that same order: filtering the
emitted lines to those containing an equals sign gives the variant lines in
input order. -/
theorem order_preservation (name : Str) (ps : List (Str × Str)) (t : ValueType)
    (hname : wf_ident name = true)
    (hps : ∀ p ∈ ps, wf_ident p.1 = true ∧ wf_value p.2 = true)
    (hinfer : JsEnum.get_value_type (mk_parsed_enum name ps) = .ok t) :
    JsEnum.consume (mk_enum_input name ps) = .ok (mk_parsed_enum name ps, []) ∧
    ∃ out, JsEnum.to_rust (mk_parsed_enum name ps) = .ok out ∧
      (split_lines out).filter contains_eq
        = ps.map (fun p => "        ".data ++ snake_to_camel_case p.1
            ++ " = ".data ++ p.2 ++ [',']) := by
  obtain ⟨hnne, hnword⟩ := wf_ident_spec name hname
  refine ⟨js_enum_consume_exact name ps hname hps, ?_⟩
  have hmac : JsEnum.macro_name (mk_parsed_enum name ps)
      = .ok (type2macro_name t) := by
    unfold JsEnum.macro_name
    rw [hinfer]
    rfl
  refine ⟨_, to_rust_unfolded _ _ hmac, ?_⟩
  have hps_ne : ps ≠ [] := by
    intro hh
    subst hh
    rw [show JsEnum.get_value_type (mk_parsed_enum name [])
      = .error (.valueError "can't infer value type for empty enum") from rfl] at hinfer
    exact absurd hinfer (by simp)
  have hmapeq : (mk_parsed_enum name ps).variants.map Variant.to_rust
      = ps.map (fun p => snake_to_camel_case p.1 ++ " = ".data ++ p.2 ++ [',']) := by
    show (ps.map (fun p =>
        ({ documentation := none, ident := p.1, value := p.2 } : Variant))).map
        Variant.to_rust = _
    rw [List.map_map]
    exact List.map_congr_left (fun p hp => variant_to_rust_nodoc p.1 p.2)
  have hlines_nl : ∀ l ∈ (mk_parsed_enum name ps).variants.map Variant.to_rust,
      ∀ c ∈ l, c ≠ '\n' := by
    rw [hmapeq]
    intro l hl c hc
    obtain ⟨p, hp, rfl⟩ := List.mem_map.mp hl
    obtain ⟨hip, hvp⟩ := hps p hp
    exact variant_line_no_nl p.1 p.2 (wf_ident_spec p.1 hip).2
      (fun x hx => ((wf_value_spec p.2 hvp).2 x hx).1) c hc
  have hbody : split_lines
      (join_with ['\n'] ((mk_parsed_enum name ps).variants.map Variant.to_rust))
      = (mk_parsed_enum name ps).variants.map Variant.to_rust := by
    apply split_lines_join
    · rw [hmapeq]
      simp [hps_ne]
    · exact hlines_nl
  have hpub_nl : ∀ c ∈ "pub enum ".data ++ name, c ≠ '\n' := by
    intro c hc
    rcases List.mem_append.mp hc with h1 | h2
    · exact (show ∀ x ∈ "pub enum ".data, x ≠ '\n' by decide) c h1
    · exact (word_char_spec c (hnword c h2)).2.2.1
  have hmac_nl : ∀ c ∈ type2macro_name t, c ≠ '\n' := by
    cases t <;> (intro c; revert c; decide)
  -- the lines of the inner wrapped block
  have hwrapped : split_lines ("pub enum ".data ++ name ++ " \x7b\n".data
      ++ add_indent (join_with ['\n']
        ((mk_parsed_enum name ps).variants.map Variant.to_rust))
      ++ "\n\x7d".data)
      = (("pub enum ".data ++ name) ++ [' ', '\x7b'])
        :: (((mk_parsed_enum name ps).variants.map Variant.to_rust).map
              (fun l => "    ".data ++ l) ++ [['\x7d']]) := by
    rw [split_lines_wrap ("pub enum ".data ++ name) _ hpub_nl, hbody]
  have hout : split_lines (type2macro_name t ++ " \x7b\n".data
      ++ add_indent ("pub enum ".data ++ name ++ " \x7b\n".data
        ++ add_indent (join_with ['\n']
          ((mk_parsed_enum name ps).variants.map Variant.to_rust))
        ++ "\n\x7d".data)
      ++ "\n\x7d".data)
      = (type2macro_name t ++ [' ', '\x7b'])
        :: ("    ".data ++ (("pub enum ".data ++ name) ++ [' ', '\x7b']))
        :: ((((mk_parsed_enum name ps).variants.map Variant.to_rust).map
              (fun l => "        ".data ++ l)
            ++ [("    ".data ++ ['\x7d'])]) ++ [['\x7d']]) := by
    rw [split_lines_wrap (type2macro_name t) _ hmac_nl, hwrapped]
    simp only [List.map_cons, List.map_append, List.map_map, List.cons_append]
    rfl
  have h0 : contains_eq (type2macro_name t ++ [' ', '\x7b']) = false :=
    contains_eq_head t
  have h1 : contains_eq ("    ".data
      ++ (("pub enum ".data ++ name) ++ [' ', '\x7b'])) = false := by
    rw [contains_eq_append, contains_eq_append, contains_eq_append,
      contains_eq_word name hnword]
    decide
  have h2 : contains_eq ("    ".data ++ ['\x7d']) = false := by decide
  have h3 : contains_eq (['\x7d'] : Str) = false := by decide
  have h4 : ∀ l ∈ ((mk_parsed_enum name ps).variants.map Variant.to_rust).map
      (fun l => "        ".data ++ l), contains_eq l = true := by
    intro l hl
    obtain ⟨l0, hl0, rfl⟩ := List.mem_map.mp hl
    rw [hmapeq] at hl0
    obtain ⟨p, hp, rfl⟩ := List.mem_map.mp hl0
    rw [contains_eq_append, contains_eq_line]
    simp
  simp only [show (mk_parsed_enum name ps).ident = name from rfl]
  rw [hout, List.filter_cons, h0]
  simp only [Bool.false_eq_true, if_false]
  rw [List.filter_cons, h1]
  simp only [Bool.false_eq_true, if_false]
  rw [List.filter_append, List.filter_append, List.filter_eq_self.mpr h4,
    show List.filter contains_eq [("    ".data ++ ['\x7d'])] = [] from by
      rw [List.filter_cons, h2]
      simp,
    show List.filter contains_eq ([['\x7d']] : List Str) = [] from by
      rw [List.filter_cons, h3]
      simp]
  simp only [List.append_nil]
  rw [hmapeq, List.map_map]
  apply List.map_congr_left
  intro p hp
  simp [Function.comp, List.append_assoc]

/-- C6 witness: a concrete two-variant enum parses into its variants in input
order and emits exactly the two re-cased assignment lines in that order. -/
theorem order_preservation_witness :
    JsEnum.consume (mk_enum_input "Pos".data
        [("low_val".data, ['0']), ("high_val".data, ['1'])])
      = .ok (mk_parsed_enum "Pos".data
          [("low_val".data, ['0']), ("high_val".data, ['1'])], []) ∧
    ∃ out, JsEnum.to_rust (mk_parsed_enum "Pos".data
        [("low_val".data, ['0']), ("high_val".data, ['1'])]) = .ok out ∧
      (split_lines out).filter contains_eq
        = [("low_val".data, ['0']), ("high_val".data, ['1'])].map
            (fun p => "        ".data ++ snake_to_camel_case p.1
              ++ " = ".data ++ p.2 ++ [',']) :=
  order_preservation "Pos".data [("low_val".data, ['0']), ("high_val".data, ['1'])]
    ValueType.int (by decide) (by decide) (by decide)

/-- Space skipping never lengthens the text. -/
theorem drop_spaces_length (s : Str) : (drop_spaces s).length ≤ s.length := by
  induction s with
  | nil => exact le_rfl
  | cons c rest ih =>
    by_cases hc : c = ' '
    · subst hc
      rw [drop_spaces_cons_sp]
      exact le_trans ih (Nat.le_succ _)
    · rw [drop_spaces_cons_ne c rest hc]

/-- Blank-line skipping never lengthens the text. -/
theorem cel_length (s : Str) : (consume_empty_lines s).length ≤ s.length := by
  induction s with
  | nil => exact le_rfl
  | cons c rest ih =>
    by_cases hc : c = '\n'
    · subst hc
      rw [cel_cons_nl]
      exact le_trans ih (Nat.le_succ _)
    · rw [cel_cons_ne c rest hc]

/-- The rest after the greedy word capture is never longer than the input. -/
theorem take_word_length (s : Str) : (take_word s).2.length ≤ s.length := by
  induction s with
  | nil => exact le_rfl
  | cons c rest ih =>
    by_cases hc : is_word_char c = true
    · simp only [take_word, hc, if_true]
      exact le_trans ih (Nat.le_succ _)
    · rw [Bool.not_eq_true] at hc
      simp [take_word, hc]

/-- A successful lazy value scan strictly shrinks the text. -/
theorem take_value_aux_length (s : Str) (p : Str × Str)
    (h : take_value_aux s = some p) : p.2.length < s.length := by
  induction s generalizing p with
  | nil => exact absurd h (by simp [take_value_aux])
  | cons c rest ih =>
    by_cases hterm : c = ',' ∧ rest.head? = some '\n'
    · rw [show take_value_aux (c :: rest) = some ([], rest.tail) from by
        simp [take_value_aux, hterm]] at h
      cases h
      calc rest.tail.length ≤ rest.length := by
            cases rest with
            | nil => exact le_rfl
            | cons d ds => exact Nat.le_succ _
        _ < (c :: rest).length := Nat.lt_succ_self _
    · by_cases hnl : c = '\n'
      · rw [show take_value_aux (c :: rest) = none from by
          simp [take_value_aux, hterm, hnl]] at h
        exact absurd h (by simp)
      · rw [show take_value_aux (c :: rest)
            = (take_value_aux rest).map (fun q => (c :: q.1, q.2)) from by
          simp [take_value_aux, hterm, hnl]] at h
        cases hq : take_value_aux rest with
        | none => rw [hq] at h; exact absurd h (by simp)
        | some q =>
          rw [hq] at h
          have h2 : some ((c :: q.1, q.2)) = some p := h
          cases h2
          exact Nat.lt_succ_of_lt (ih q hq)

/-- A successful value capture strictly shrinks the text. -/
theorem take_value_length (s : Str) (p : Str × Str)
    (h : take_value s = some p) : p.2.length < s.length := by
  cases s with
  | nil => exact absurd h (by simp [take_value])
  | cons c rest =>
    by_cases hnl : c = '\n'
    · rw [show take_value (c :: rest) = none from by simp [take_value, hnl]] at h
      exact absurd h (by simp)
    · rw [show take_value (c :: rest)
          = (take_value_aux rest).map (fun q => (c :: q.1, q.2)) from by
        simp [take_value, hnl]] at h
      cases hq : take_value_aux rest with
      | none => rw [hq] at h; exact absurd h (by simp)
      | some q =>
        rw [hq] at h
        have h2 : some ((c :: q.1, q.2)) = some p := h
        cases h2
        exact Nat.lt_succ_of_lt (take_value_aux_length rest q hq)

/-- A successful variant-pattern match strictly shrinks the text. -/
theorem match_variant_length (s : Str) (trip : Str × Str × Str)
    (h : match_variant s = some trip) : trip.2.2.length < s.length := by
  unfold match_variant match_variant_after_word at h
  by_cases hne : (take_word (drop_spaces s)).1 = []
  · rw [if_pos hne] at h
    exact absurd h (by simp)
  · rw [if_neg hne] at h
    split at h
    · rename_i after heq
      cases hq : take_value after with
      | none => rw [hq] at h; exact absurd h (by simp)
      | some q =>
        rw [hq] at h
        have h5 : some (((take_word (drop_spaces s)).1, q.1, q.2)) = some trip := h
        cases h5
        have h1 : q.2.length < after.length := take_value_length after q hq
        have h2 : after.length < (take_word (drop_spaces s)).2.length := by
          rw [heq]
          simp only [List.length_cons]
          omega
        have h3 := take_word_length (drop_spaces s)
        have h4 := drop_spaces_length s
        show List.length q.2 < List.length s
        omega
    · exact absurd h (by simp)

/-- A successful newline split strictly shrinks the text. -/
theorem split_at_nl_length (s : Str) (p : Str × Str)
    (h : split_at_nl s = some p) : p.2.length < s.length := by
  induction s generalizing p with
  | nil => exact absurd h (by simp [split_at_nl])
  | cons c rest ih =>
    by_cases hnl : c = '\n'
    · rw [show split_at_nl (c :: rest) = some ([], rest) from by
        simp [split_at_nl, hnl]] at h
      cases h
      exact Nat.lt_succ_self _
    · rw [show split_at_nl (c :: rest)
          = (split_at_nl rest).map (fun q => (c :: q.1, q.2)) from by
        simp [split_at_nl, hnl]] at h
      cases hq : split_at_nl rest with
      | none => rw [hq] at h; exact absurd h (by simp)
      | some q =>
        rw [hq] at h
        have h2 : some ((c :: q.1, q.2)) = some p := h
        cases h2
        exact Nat.lt_succ_of_lt (ih q hq)

/-- A recognized documentation line strictly shrinks the text. -/
theorem doc_line_length (s : Str) (p : Str × Str)
    (h : doc_line s = some p) : p.2.length < s.length := by
  unfold doc_line at h
  by_cases hb : begins "//".data (drop_spaces s) = true
  · rw [if_pos hb] at h
    have h1 := split_at_nl_length _ p h
    have h2 : ((drop_spaces s).drop 2).length ≤ (drop_spaces s).length := by
      rw [List.length_drop]
      omega
    have h3 := drop_spaces_length s
    omega
  · rw [Bool.not_eq_true] at hb
    rw [if_neg (by simp [hb])] at h
    exact absurd h (by simp)

/-- Documentation extraction never lengthens the text. -/
theorem consume_doc_lines_length (n : Nat) (s : Str) :
    (consume_doc_lines n s).2.length ≤ s.length := by
  induction n generalizing s with
  | zero => exact le_rfl
  | succ n ih =>
    cases hd : doc_line s with
    | none => simp [consume_doc_lines, hd]
    | some p =>
      have h1 := doc_line_length s p hd
      have h2 := ih p.2
      calc (consume_doc_lines (n + 1) s).2.length
          = (consume_doc_lines n p.2).2.length := by simp [consume_doc_lines, hd]
        _ ≤ p.2.length := h2
        _ ≤ s.length := le_of_lt h1

/-- Documented.consume never lengthens the text. -/
theorem documented_consume_length (s : Str) :
    (documented_consume s).2.length ≤ s.length := by
  unfold documented_consume
  exact consume_doc_lines_length s.length s

/-- A successful Variant.consume strictly shrinks the text, so the variant
loop, run with the body length as fuel, never exhausts it: the fuel is an
embedding device, not a semantic bound. -/
theorem variant_consume_shrinks (s : Str) (v : Variant) (r : Str)
    (h : Variant.consume s = .ok (v, r)) : r.length < s.length := by
  unfold Variant.consume consume_match at h
  cases hm : match_variant (documented_consume s).2 with
  | none =>
    simp only [hm] at h
    exact absurd h (by simp)
  | some trip =>
    obtain ⟨i, val, rest0⟩ := trip
    simp only [hm] at h
    have hr : r = consume_empty_lines rest0 := by
      cases h
      rfl
    have h1 := cel_length rest0
    have h2 := match_variant_length _ _ hm
    have h2a : List.length rest0 < List.length (documented_consume s).2 := h2
    have h3 := documented_consume_length s
    rw [hr]
    omega
